import Mathlib

/-!
Verification of the surfdist analysis layer (`surfdist/analysis.py`).

The repository source under verification contains the four analysis
functions `dist_calc`, `dist_calc_pairwise`, `zone_calc` and
`dist_calc_matrix`.  Their helpers (`surf_keep_cortex`, `translate_src`,
`recort`, `recort2d`, and the freesurfer label readers) live outside the
available source tree, so they are modelled from the specification.  The
external geodesic solver (`gdist`) is an abstract parameter; numpy's
default `argsort` (introsort from npysort) is embedded concretely because
`zone_calc`'s tie behaviour depends on it.

Distances are modelled as rationals; machine floats are treated as exact.
-/

namespace Surfdist

/-- Error taxonomy from the specification (plus the numpy `IndexError`
raised by `zone_calc` on an empty seed sequence). -/
inductive SDError where
  | invalidMask
  | outOfCortex
  | emptyRegion
  | indexError
deriving DecidableEq, Repr

/-- A full triangulated surface: vertex coordinates and triangles. -/
structure Surface where
  verts : List (ℚ × ℚ × ℚ)
  triangles : List (Nat × Nat × Nat)

/-- Number of vertices of the full surface. -/
def Surface.nVerts (s : Surface) : Nat := s.verts.length

/-- Boolean test that a list of indices is strictly increasing. -/
def sortedStrict : List Nat → Bool
  | [] => true
  | [_] => true
  | a :: b :: rest => decide (a < b) && sortedStrict (b :: rest)

/-- Validity of a cortex mask over a surface with `n` vertices: nonempty,
strictly increasing (hence sorted and duplicate free), all indices in
range. -/
def validMask (n : Nat) (C : List Nat) : Bool :=
  (!C.isEmpty) && sortedStrict C && C.all (fun v => decide (v < n))

/-- Cortex-local index of a full-surface vertex: position of its first
occurrence in the mask. -/
def locIdx : List Nat → Nat → Nat
  | [], _ => 0
  | c :: rest, v => if c = v then 0 else locIdx rest v + 1

/-- The cortex-restricted sub-mesh. -/
structure Subsurface where
  verts : List (ℚ × ℚ × ℚ)
  tris : List (Nat × Nat × Nat)

/-- Number of vertices of the subsurface. -/
def Subsurface.size (s : Subsurface) : Nat := s.verts.length

/-- Construction of the cortex subsurface: vertices restricted to the mask
in mask order, triangles kept only when all three corners are in the mask
and remapped to cortex-local indices. -/
def mkSub (surf : Surface) (C : List Nat) : Subsurface :=
  { verts := C.map (fun v => surf.verts.getD v (0, 0, 0)),
    tris := surf.triangles.filterMap (fun tr =>
      if C.contains tr.1 && C.contains tr.2.1 && C.contains tr.2.2 then
        some (locIdx C tr.1, locIdx C tr.2.1, locIdx C tr.2.2)
      else none) }

/-- Modelled from the spec: `surf_keep_cortex` (alias `restrict_to_cortex`,
`surfdist/utils.py`, absent from the available source).  Fails with
`InvalidMaskError` if the mask is empty, contains duplicate or
out-of-range indices, or is not sorted; otherwise returns the cortex
subsurface. -/
def surf_keep_cortex (surf : Surface) (C : List Nat) : Except SDError Subsurface :=
  if validMask surf.nVerts C then .ok (mkSub surf C) else .error .invalidMask

/-- Modelled from the spec: `translate_src` (alias `translate_source`,
`surfdist/utils.py`, absent from the available source).  Maps full-surface
source indices to cortex-local indices via the mask's inverse lookup;
fails with `OutOfCortexError` if any index is not present in the mask. -/
def translate_src (src : List Nat) (C : List Nat) : Except SDError (List Nat) :=
  if src.all (fun v => decide (v ∈ C)) then .ok (src.map (locIdx C)) else .error .outOfCortex

/-- Modelled from the spec: `recort` (alias `project_vector`,
`surfdist/utils.py`, absent from the available source).  Scatters a
cortex-local field back to full-surface indexing; positions outside the
mask receive the sentinel `0`. -/
def recort {α : Type} [Zero α] (f : List α) (n : Nat) (C : List Nat) : List α :=
  (List.range n).map (fun v => if v ∈ C then f.getD (locIdx C v) 0 else 0)

/-- Modelled from the spec: `recort2d` (alias `project_matrix`,
`surfdist/utils.py`, absent from the available source).  Re-expresses each
stored entry `(i, j, v)` of the cortex-local sparse matrix as
`(C[i], C[j], v)`; sparsity is preserved exactly. -/
def recort2d (M : List (Nat × Nat × ℚ)) (C : List Nat) : List (Nat × Nat × ℚ) :=
  M.map (fun e => (C.getD e.1 0, C.getD e.2.1 0, e.2.2))

/-- Type of the external single-source geodesic solver
(`gdist.compute_gdist`): cortex-local mesh data and local source indices
to a per-vertex distance field. -/
abbrev Solver := Subsurface → List Nat → List ℚ

/-- Type of the external bounded all-pairs geodesic solver
(`gdist.local_gdist_matrix`): returns the stored sparse entries
`(i, j, value)` in cortex-local indices. -/
abbrev PairSolver := Subsurface → ℚ → List (Nat × Nat × ℚ)

/-- Sequential effectful map over a list in the `Except` monad, mirroring
a python `for` loop that may raise: the first failure aborts the whole
computation. -/
def mapE (f : α → Except SDError β) : List α → Except SDError (List β)
  | [] => .ok []
  | x :: xs =>
    match f x with
    | .error e => .error e
    | .ok y =>
      match mapE f xs with
      | .error e => .error e
      | .ok ys => .ok (y :: ys)

/-- `dist_calc` from `surfdist/analysis.py`: restrict to the cortex,
translate the sources, run the solver, project back to full-surface
indexing. -/
def dist_calc (gd : Solver) (surf : Surface) (C : List Nat) (src : List Nat) :
    Except SDError (List ℚ) := do
  let sub ← surf_keep_cortex surf C
  let ts ← translate_src src C
  .ok (recort (gd sub ts) surf.nVerts C)

/-- `dist_calc_pairwise` from `surfdist/analysis.py`: restrict to the
cortex, run the bounded all-pairs solver, re-embed the sparse result into
full-surface indices. -/
def dist_calc_pairwise (g2 : PairSolver) (surf : Surface) (C : List Nat) (maxdist : ℚ) :
    Except SDError (List (Nat × Nat × ℚ)) := do
  let sub ← surf_keep_cortex surf C
  .ok (recort2d (g2 sub maxdist) C)

/-! ### numpy default argsort (introsort from npysort/quicksort.c)

`zone_calc` computes `np.argsort(dist_vals, axis=0)[0, :] + 1`.  The tie
behaviour of numpy's default (`kind='quicksort'`, an introsort) decides
which of several equidistant seeds a vertex is assigned to, so the sort is
embedded faithfully: median-of-3 quicksort on the index array with the
pivot parked at `pr - 1`, insertion sort for spans of at most 16 elements
(`SMALL_QUICKSORT = 15`), a heapsort fallback when the depth budget
`2 * floor(log2 n)` is exhausted, and the larger partition pushed on an
explicit stack.  All loops carry explicit fuel; the fuel bounds are large
enough that they are never the reason a loop stops. -/

/-- Write `v` at position `i`, leaving the list unchanged when out of
range. -/
def setIdx : List α → Nat → α → List α
  | [], _, _ => []
  | _ :: rest, 0, v => v :: rest
  | x :: rest, i + 1, v => x :: setIdx rest i v

/-- Remove the element at position `i` (no change when out of range). -/
def remIdx : List α → Nat → List α
  | [], _ => []
  | _ :: rest, 0 => rest
  | x :: rest, i + 1 => x :: remIdx rest i

/-- Insert `v` at position `i` (appended at the end when `i` exceeds the
length). -/
def insIdx (v : α) : Nat → List α → List α
  | 0, l => v :: l
  | _ + 1, [] => [v]
  | i + 1, x :: rest => x :: insIdx v i rest

/-- The strict comparison used by the sort. -/
def qlt (x y : ℚ) : Bool := decide (x < y)

/-- Value indexed through the index array: `v[tosort[p]]`. -/
def vat (va : List ℚ) (t : List Nat) (p : Nat) : ℚ := va.getD (t.getD p 0) 0

/-- Swap two positions of the index array. -/
def swapL (t : List Nat) (i j : Nat) : List Nat :=
  setIdx (setIdx t i (t.getD j 0)) j (t.getD i 0)

/-- `do ++pi; while (v[*pi] < vp)`: first position strictly above `p`
whose value is not below the pivot. -/
def scanUp (va : List ℚ) (t : List Nat) (vp : ℚ) : Nat → Nat → Nat
  | p, 0 => p + 1
  | p, fuel + 1 => if qlt (vat va t (p + 1)) vp then scanUp va t vp (p + 1) fuel else p + 1

/-- `do --pj; while (vp < v[*pj])`: first position strictly below `p`
whose value is not above the pivot. -/
def scanDown (va : List ℚ) (t : List Nat) (vp : ℚ) : Nat → Nat → Nat
  | p, 0 => p - 1
  | p, fuel + 1 => if qlt vp (vat va t (p - 1)) then scanDown va t vp (p - 1) fuel else p - 1

/-- Hoare partition loop of the npysort quicksort; returns the updated
index array and the final `pi`. -/
def partLoop (va : List ℚ) (vp : ℚ) : Nat → List Nat → Nat → Nat → List Nat × Nat
  | 0, t, p, _ => (t, p)
  | fuel + 1, t, p, q =>
    let p1 := scanUp va t vp p (t.length + 1)
    let q1 := scanDown va t vp q (t.length + 1)
    if q1 ≤ p1 then (t, p1)
    else partLoop va vp fuel (swapL t p1 q1) p1 q1

/-- One full partition step on the span `[pl, pr]`: median-of-3 pivot
selection, pivot parked at `pr - 1`, Hoare partition, pivot swapped into
its final place.  Returns the array and the pivot position. -/
def doPart (va : List ℚ) (t : List Nat) (pl pr : Nat) : List Nat × Nat :=
  let pm := pl + (pr - pl) / 2
  let t1 := if qlt (vat va t pm) (vat va t pl) then swapL t pm pl else t
  let t2 := if qlt (vat va t1 pr) (vat va t1 pm) then swapL t1 pr pm else t1
  let t3 := if qlt (vat va t2 pm) (vat va t2 pl) then swapL t2 pm pl else t2
  let vp := vat va t3 pm
  let t4 := swapL t3 pm (pr - 1)
  let pq := partLoop va vp (pr + 1) t4 pl (pr - 1)
  (swapL pq.1 pq.2 (pr - 1), pq.2)

/-- Destination position of the insertion-sort shift: walk down from `p`
while above `pl` and the element to the left is strictly greater. -/
def insPos (va : List ℚ) (t : List Nat) (pl : Nat) (viv : ℚ) : Nat → Nat → Nat
  | p, 0 => p
  | p, fuel + 1 =>
    if pl < p && qlt viv (vat va t (p - 1)) then insPos va t pl viv (p - 1) fuel else p

/-- One insertion-sort step: move the element at `p` down to its place
within `[pl, p]`. -/
def shiftIns (va : List ℚ) (t : List Nat) (pl p : Nat) : List Nat :=
  if p < t.length then
    let vi := t.getD p 0
    let dst := insPos va t pl (va.getD vi 0) p (p + 1)
    insIdx vi dst (remIdx t p)
  else t

/-- Insertion sort of the span `[pl, pr]` (`p` runs from `pl + 1` up). -/
def insLoop (va : List ℚ) (pl pr : Nat) : Nat → List Nat → Nat → List Nat
  | 0, t, _ => t
  | fuel + 1, t, p => if p ≤ pr then insLoop va pl pr fuel (shiftIns va t pl p) (p + 1) else t

/-- Sift step of the npysort heapsort on the 1-based heap `a[i] =
tosort[pl + i - 1]` of size `n`; returns the array and the final `i`. -/
def hSift (va : List ℚ) (pl : Nat) (tv : ℚ) (n : Nat) : Nat → List Nat → Nat → Nat → List Nat × Nat
  | 0, t, i, _ => (t, i)
  | fuel + 1, t, i, j =>
    if j ≤ n then
      let j1 := if j < n && qlt (vat va t (pl + j - 1)) (vat va t (pl + j)) then j + 1 else j
      if qlt tv (vat va t (pl + j1 - 1)) then
        hSift va pl tv n fuel (setIdx t (pl + i - 1) (t.getD (pl + j1 - 1) 0)) j1 (j1 + j1)
      else (t, i)
    else (t, i)

/-- Heap construction phase (`l` runs from `n / 2` down to `1`). -/
def hHeapify (va : List ℚ) (pl n : Nat) : Nat → List Nat → Nat → List Nat
  | 0, t, _ => t
  | fuel + 1, t, l =>
    if 1 ≤ l then
      let tmp := t.getD (pl + l - 1) 0
      let pq := hSift va pl (va.getD tmp 0) n (n + 2) t l (l + l)
      hHeapify va pl n fuel (setIdx pq.1 (pl + pq.2 - 1) tmp) (l - 1)
    else t

/-- Extraction phase of the heapsort. -/
def hExtract (va : List ℚ) (pl : Nat) : Nat → List Nat → Nat → List Nat
  | 0, t, _ => t
  | fuel + 1, t, n =>
    if 2 ≤ n then
      let tmp := t.getD (pl + n - 1) 0
      let t1 := setIdx t (pl + n - 1) (t.getD pl 0)
      let n1 := n - 1
      let pq := hSift va pl (va.getD tmp 0) n1 (n1 + 2) t1 1 2
      hExtract va pl fuel (setIdx pq.1 (pl + pq.2 - 1) tmp) n1
    else t

/-- npysort argsort-heapsort on the span starting at `pl` of length
`num`. -/
def aheap (va : List ℚ) (t : List Nat) (pl num : Nat) : List Nat :=
  hExtract va pl (num + 1) (hHeapify va pl num (num / 2 + 1) t (num / 2)) num

/-- Main introsort driver: partition spans longer than 16 while the depth
budget lasts (heapsort once it is exhausted), push the larger side on the
stack, insertion sort short spans, then pop. -/
def qsLoop (va : List ℚ) : Nat → List Nat → List (Nat × Nat) → Nat → Nat → Int → List Nat
  | 0, t, _, _, _, _ => t
  | fuel + 1, t, stk, pl, pr, depth =>
    if 15 < pr - pl then
      if depth < 0 then
        let t1 := aheap va t pl (pr - pl + 1)
        match stk with
        | [] => t1
        | (a, b) :: rest => qsLoop va fuel t1 rest a b depth
      else
        let pq := doPart va t pl pr
        if pq.2 - pl < pr - pq.2 then
          qsLoop va fuel pq.1 ((pq.2 + 1, pr) :: stk) pl (pq.2 - 1) (depth - 1)
        else
          qsLoop va fuel pq.1 ((pl, pq.2 - 1) :: stk) (pq.2 + 1) pr (depth - 1)
    else
      let t1 := insLoop va pl pr (pr + 1 - pl) t (pl + 1)
      match stk with
      | [] => t1
      | (a, b) :: rest => qsLoop va fuel t1 rest a b depth

/-- `np.argsort` with the default kind on a 1-D array of rationals:
returns the sorted index array. -/
def argsortNp (v : List ℚ) : List Nat :=
  let k := v.length
  if k = 0 then []
  else qsLoop v (2 * k + 8) (List.range k) [] 0 (k - 1) (2 * (Nat.log2 k : Int))

/-- `zone_calc` from `surfdist/analysis.py`: one solver run per seed set,
then `np.argsort(dist_vals, axis=0)[0, :] + 1` projected back to the full
surface.  An empty seed sequence reaches the `[0, :]` indexing of a
zero-row array, a numpy `IndexError`. -/
def zone_calc (gd : Solver) (surf : Surface) (C : List Nat) (seeds : List (List Nat)) :
    Except SDError (List Nat) := do
  let sub ← surf_keep_cortex surf C
  let rows ← mapE (fun s => do
    let ts ← translate_src s C
    .ok (gd sub ts)) seeds
  if seeds.length = 0 then .error .indexError
  else
    .ok (recort ((List.range C.length).map (fun j =>
      (argsortNp (rows.map (fun r => r.getD j 0))).getD 0 0 + 1)) surf.nVerts C)

/-! ### Region distance matrix -/

/-- `np.min` over a nonempty list (left fold of the binary minimum). -/
def minlist : List ℚ → ℚ
  | [] => 0
  | x :: xs => xs.foldl min x

/-- `np.min(row[ts])`: minimum of the row at the given column indices; an
empty index list is an empty region (`np.min` of an empty slice raises,
surfaced as `EmptyRegionError` per the specification). -/
def minOver (row : List ℚ) (ts : List Nat) : Except SDError ℚ :=
  match ts with
  | [] => .error .emptyRegion
  | _ => .ok (minlist (ts.map (fun j => row.getD j 0)))

/-- Modelled from the spec: the label reader (`surfdist/load.py`, absent
from the available source).  A label collection is a list of (name,
member vertices) pairs; `load_freesurfer_label` is lookup by name. -/
def lookupLabel (labels : List (String × List Nat)) (name : String) : List Nat :=
  match labels.find? (fun p => p.1 == name) with
  | some p => p.2
  | none => []

/-- Retained region names: the label names not in the exclusion list, in
label-collection order. -/
def roisOf (labels : List (String × List Nat)) (exceptions : List String) : List String :=
  (labels.map Prod.fst).filter (fun a => !exceptions.contains a)

/-- Cortex-local member indices of a named region. -/
def tsOf (labels : List (String × List Nat)) (C : List Nat) (r : String) : List Nat :=
  (lookupLabel labels r).map (locIdx C)

/-- The default exclusion list of `dist_calc_matrix`. -/
def defaultExceptions : List String := ["Unknown", "Medial_wall"]

/-- `dist_calc_matrix` from `surfdist/analysis.py`: filter the label
names, one solver run per retained region giving `dist_roi`, then for
each region the row of minima `np.min(dist_roi[:, translated], axis=1)`.
Returns the matrix and the region names. -/
def dist_calc_matrix (gd : Solver) (surf : Surface) (C : List Nat)
    (labels : List (String × List Nat)) (exceptions : List String) :
    Except SDError (List (List ℚ) × List String) := do
  let sub ← surf_keep_cortex surf C
  let rois := roisOf labels exceptions
  let dist_roi ← mapE (fun roi => do
    let ts ← translate_src (lookupLabel labels roi) C
    .ok (gd sub ts)) rois
  let dist_mat ← mapE (fun roi => do
    let ts ← translate_src (lookupLabel labels roi) C
    mapE (fun row => minOver row ts) dist_roi) rois
  .ok (dist_mat, rois)

/-- Entry `(a, b)` of a dense matrix held as a list of rows. -/
def mEntry (M : List (List ℚ)) (a b : Nat) : ℚ := (M.getD a []).getD b 0

/-! ### Elementary list lemmas -/

theorem setIdx_length (t : List α) (i : Nat) (v : α) : (setIdx t i v).length = t.length := by
  induction t generalizing i with
  | nil => rfl
  | cons x rest ih =>
    cases i with
    | zero => rfl
    | succ i => simpa [setIdx] using ih i

theorem mem_setIdx {t : List α} {i : Nat} {v x : α} (h : x ∈ setIdx t i v) : x ∈ t ∨ x = v := by
  induction t generalizing i with
  | nil => simp [setIdx] at h
  | cons y rest ih =>
    cases i with
    | zero =>
      rcases List.mem_cons.mp h with h1 | h1
      · exact Or.inr h1
      · exact Or.inl (List.mem_cons_of_mem _ h1)
    | succ i =>
      rcases List.mem_cons.mp h with h1 | h1
      · exact Or.inl (h1 ▸ List.mem_cons_self _ _)
      · rcases ih h1 with h2 | h2
        · exact Or.inl (List.mem_cons_of_mem _ h2)
        · exact Or.inr h2

theorem remIdx_length {t : List α} {i : Nat} (h : i < t.length) :
    (remIdx t i).length + 1 = t.length := by
  induction t generalizing i with
  | nil => simp at h
  | cons x rest ih =>
    cases i with
    | zero => rfl
    | succ i => simpa [remIdx] using ih (Nat.lt_of_succ_lt_succ h)

theorem mem_remIdx {t : List α} {i : Nat} {x : α} (h : x ∈ remIdx t i) : x ∈ t := by
  induction t generalizing i with
  | nil => simp [remIdx] at h
  | cons y rest ih =>
    cases i with
    | zero => exact List.mem_cons_of_mem _ h
    | succ i =>
      rcases List.mem_cons.mp h with h1 | h1
      · exact h1 ▸ List.mem_cons_self _ _
      · exact List.mem_cons_of_mem _ (ih h1)

theorem insIdx_length (v : α) (i : Nat) (l : List α) : (insIdx v i l).length = l.length + 1 := by
  induction l generalizing i with
  | nil => cases i <;> rfl
  | cons x rest ih =>
    cases i with
    | zero => rfl
    | succ i => simpa [insIdx] using ih i

theorem mem_insIdx {v : α} {i : Nat} {l : List α} {x : α} (h : x ∈ insIdx v i l) :
    x ∈ l ∨ x = v := by
  induction l generalizing i with
  | nil =>
    cases i with
    | zero => simpa [insIdx] using h
    | succ i => simpa [insIdx] using h
  | cons y rest ih =>
    cases i with
    | zero =>
      rcases List.mem_cons.mp h with h1 | h1
      · exact Or.inr h1
      · exact Or.inl h1
    | succ i =>
      rcases List.mem_cons.mp h with h1 | h1
      · exact Or.inl (h1 ▸ List.mem_cons_self _ _)
      · rcases ih h1 with h2 | h2
        · exact Or.inl (List.mem_cons_of_mem _ h2)
        · exact Or.inr h2

/-- All entries of an index list are below `k`. -/
def bnd (k : Nat) (t : List Nat) : Prop := ∀ x ∈ t, x < k

theorem bnd_getD {k : Nat} {t : List Nat} (h : bnd k t) (hk : 0 < k) (i : Nat) :
    t.getD i 0 < k := by
  rcases Nat.lt_or_ge i t.length with hi | hi
  · rw [List.getD_eq_getElem?_getD, List.getElem?_eq_getElem hi]
    exact h _ (List.getElem_mem hi)
  · rw [List.getD_eq_getElem?_getD, List.getElem?_eq_none hi]
    exact hk

theorem bnd_setIdx {k : Nat} {t : List Nat} (h : bnd k t) {v : Nat} (hv : v < k) (i : Nat) :
    bnd k (setIdx t i v) := by
  intro x hx
  rcases mem_setIdx hx with h1 | h1
  · exact h x h1
  · exact h1 ▸ hv

theorem setIdx_length_eq {k : Nat} {t : List Nat} (h : t.length = k) (i : Nat) (v : Nat) :
    (setIdx t i v).length = k := by rw [setIdx_length]; exact h

theorem bnd_swapL {k : Nat} {t : List Nat} (h : bnd k t) (hk : 0 < k) (i j : Nat) :
    bnd k (swapL t i j) :=
  bnd_setIdx (bnd_setIdx h (bnd_getD h hk j) i) (bnd_getD h hk i) j

theorem swapL_length (t : List Nat) (i j : Nat) : (swapL t i j).length = t.length := by
  simp [swapL, setIdx_length]

/-! ### Invariants of the embedded sort: length preservation and
boundedness of the index entries -/

theorem shiftIns_length (va : List ℚ) (t : List Nat) (pl p : Nat) :
    (shiftIns va t pl p).length = t.length := by
  unfold shiftIns
  split
  · next h =>
    rw [insIdx_length, remIdx_length h]
  · rfl

theorem bnd_shiftIns {k : Nat} (va : List ℚ) {t : List Nat} (h : bnd k t) (hk : 0 < k)
    (pl p : Nat) : bnd k (shiftIns va t pl p) := by
  unfold shiftIns
  split
  · intro x hx
    rcases mem_insIdx hx with h1 | h1
    · exact h x (mem_remIdx h1)
    · exact h1 ▸ bnd_getD h hk p
  · exact h

theorem insLoop_length (va : List ℚ) (pl pr : Nat) :
    ∀ (fuel : Nat) (t : List Nat) (p : Nat), (insLoop va pl pr fuel t p).length = t.length := by
  intro fuel
  induction fuel with
  | zero => intro t p; rfl
  | succ fuel ih =>
    intro t p
    unfold insLoop
    split
    · rw [ih, shiftIns_length]
    · rfl

theorem bnd_insLoop {k : Nat} (va : List ℚ) (hk : 0 < k) (pl pr : Nat) :
    ∀ (fuel : Nat) (t : List Nat) (p : Nat), bnd k t → bnd k (insLoop va pl pr fuel t p) := by
  intro fuel
  induction fuel with
  | zero => intro t p h; exact h
  | succ fuel ih =>
    intro t p h
    unfold insLoop
    split
    · exact ih _ _ (bnd_shiftIns va h hk pl p)
    · exact h

theorem partLoop_length (va : List ℚ) (vp : ℚ) :
    ∀ (fuel : Nat) (t : List Nat) (p q : Nat),
      (partLoop va vp fuel t p q).1.length = t.length := by
  intro fuel
  induction fuel with
  | zero => intro t p q; rfl
  | succ fuel ih =>
    intro t p q
    unfold partLoop
    dsimp only
    split
    · rfl
    · rw [ih, swapL_length]

theorem bnd_partLoop {k : Nat} (va : List ℚ) (vp : ℚ) (hk : 0 < k) :
    ∀ (fuel : Nat) (t : List Nat) (p q : Nat), bnd k t →
      bnd k (partLoop va vp fuel t p q).1 := by
  intro fuel
  induction fuel with
  | zero => intro t p q h; exact h
  | succ fuel ih =>
    intro t p q h
    unfold partLoop
    dsimp only
    split
    · exact h
    · exact ih _ _ _ (bnd_swapL h hk _ _)

theorem doPart_length (va : List ℚ) (t : List Nat) (pl pr : Nat) :
    (doPart va t pl pr).1.length = t.length := by
  unfold doPart
  dsimp only
  rw [swapL_length, partLoop_length, swapL_length]
  split <;> split <;> (try split) <;> simp [swapL_length]

theorem bnd_doPart {k : Nat} (va : List ℚ) {t : List Nat} (h : bnd k t) (hk : 0 < k)
    (pl pr : Nat) : bnd k (doPart va t pl pr).1 := by
  unfold doPart
  dsimp only
  refine bnd_swapL (bnd_partLoop va _ hk _ _ _ _ (bnd_swapL ?_ hk _ _)) hk _ _
  split <;> split <;> (try split) <;>
    first
      | exact h
      | exact bnd_swapL h hk _ _
      | exact bnd_swapL (bnd_swapL h hk _ _) hk _ _
      | exact bnd_swapL (bnd_swapL (bnd_swapL h hk _ _) hk _ _) hk _ _

theorem hSift_length (va : List ℚ) (pl : Nat) (tv : ℚ) (n : Nat) :
    ∀ (fuel : Nat) (t : List Nat) (i j : Nat),
      (hSift va pl tv n fuel t i j).1.length = t.length := by
  intro fuel
  induction fuel with
  | zero => intro t i j; rfl
  | succ fuel ih =>
    intro t i j
    unfold hSift
    dsimp only
    split
    · split <;> split <;> first | rw [ih, setIdx_length] | rfl
    · rfl

theorem bnd_hSift {k : Nat} (va : List ℚ) (pl : Nat) (tv : ℚ) (n : Nat) (hk : 0 < k) :
    ∀ (fuel : Nat) (t : List Nat) (i j : Nat), bnd k t →
      bnd k (hSift va pl tv n fuel t i j).1 := by
  intro fuel
  induction fuel with
  | zero => intro t i j h; exact h
  | succ fuel ih =>
    intro t i j h
    unfold hSift
    dsimp only
    split
    · split <;> split <;>
        first
          | exact ih _ _ _ (bnd_setIdx h (bnd_getD h hk _) _)
          | exact h
    · exact h

theorem hHeapify_length (va : List ℚ) (pl n : Nat) :
    ∀ (fuel : Nat) (t : List Nat) (l : Nat),
      (hHeapify va pl n fuel t l).length = t.length := by
  intro fuel
  induction fuel with
  | zero => intro t l; rfl
  | succ fuel ih =>
    intro t l
    unfold hHeapify
    split
    · rw [ih, setIdx_length, hSift_length]
    · rfl

theorem bnd_hHeapify {k : Nat} (va : List ℚ) (pl n : Nat) (hk : 0 < k) :
    ∀ (fuel : Nat) (t : List Nat) (l : Nat), bnd k t →
      bnd k (hHeapify va pl n fuel t l) := by
  intro fuel
  induction fuel with
  | zero => intro t l h; exact h
  | succ fuel ih =>
    intro t l h
    unfold hHeapify
    split
    · exact ih _ _ (bnd_setIdx (bnd_hSift va pl _ n hk _ _ _ _ h) (bnd_getD h hk _) _)
    · exact h

theorem hExtract_length (va : List ℚ) (pl : Nat) :
    ∀ (fuel : Nat) (t : List Nat) (n : Nat),
      (hExtract va pl fuel t n).length = t.length := by
  intro fuel
  induction fuel with
  | zero => intro t n; rfl
  | succ fuel ih =>
    intro t n
    unfold hExtract
    split
    · rw [ih, setIdx_length, hSift_length, setIdx_length]
    · rfl

theorem bnd_hExtract {k : Nat} (va : List ℚ) (pl : Nat) (hk : 0 < k) :
    ∀ (fuel : Nat) (t : List Nat) (n : Nat), bnd k t →
      bnd k (hExtract va pl fuel t n) := by
  intro fuel
  induction fuel with
  | zero => intro t n h; exact h
  | succ fuel ih =>
    intro t n h
    unfold hExtract
    split
    · refine ih _ _ (bnd_setIdx ?_ (bnd_getD h hk _) _)
      exact bnd_hSift va pl _ _ hk _ _ _ _ (bnd_setIdx h (bnd_getD h hk _) _)
    · exact h

theorem aheap_length (va : List ℚ) (t : List Nat) (pl num : Nat) :
    (aheap va t pl num).length = t.length := by
  unfold aheap
  rw [hExtract_length, hHeapify_length]

theorem bnd_aheap {k : Nat} (va : List ℚ) {t : List Nat} (h : bnd k t) (hk : 0 < k)
    (pl num : Nat) : bnd k (aheap va t pl num) :=
  bnd_hExtract va pl hk _ _ _ (bnd_hHeapify va pl num hk _ _ _ h)

theorem qsLoop_inv {k : Nat} (va : List ℚ) (hk : 0 < k) :
    ∀ (fuel : Nat) (t : List Nat) (stk : List (Nat × Nat)) (pl pr : Nat) (depth : Int),
      t.length = k → bnd k t →
      (qsLoop va fuel t stk pl pr depth).length = k ∧
        bnd k (qsLoop va fuel t stk pl pr depth) := by
  intro fuel
  induction fuel with
  | zero => intro t stk pl pr depth hl h; exact ⟨hl, h⟩
  | succ fuel ih =>
    intro t stk pl pr depth hl h
    unfold qsLoop
    dsimp only
    split
    · split
      · split
        · exact ⟨by rw [aheap_length]; exact hl, bnd_aheap va h hk _ _⟩
        · exact ih _ _ _ _ _ (by rw [aheap_length]; exact hl) (bnd_aheap va h hk _ _)
      · split
        · exact ih _ _ _ _ _ (by rw [doPart_length]; exact hl) (bnd_doPart va h hk _ _)
        · exact ih _ _ _ _ _ (by rw [doPart_length]; exact hl) (bnd_doPart va h hk _ _)
    · split
      · exact ⟨by rw [insLoop_length]; exact hl, bnd_insLoop va hk _ _ _ _ _ h⟩
      · exact ih _ _ _ _ _ (by rw [insLoop_length]; exact hl) (bnd_insLoop va hk _ _ _ _ _ h)

theorem argsortNp_length (v : List ℚ) : (argsortNp v).length = v.length := by
  unfold argsortNp
  dsimp only
  split
  · next h => simp [h]
  · next h =>
    exact (qsLoop_inv v (Nat.pos_of_ne_zero h) _ _ _ _ _ _
      (List.length_range _) (fun x hx => List.mem_range.mp hx)).1

theorem argsortNp_lt {v : List ℚ} {x : Nat} (hx : x ∈ argsortNp v) : x < v.length := by
  unfold argsortNp at hx
  dsimp only at hx
  split at hx
  · simp at hx
  · next h =>
    exact (qsLoop_inv v (Nat.pos_of_ne_zero h) _ _ _ _ _ _
      (List.length_range _) (fun y hy => List.mem_range.mp hy)).2 x hx

/-! ### Index translation: round trips and mask validity -/

theorem locIdx_lt_length {C : List Nat} {v : Nat} (h : v ∈ C) : locIdx C v < C.length := by
  induction C with
  | nil => simp at h
  | cons c rest ih =>
    by_cases hc : c = v
    · simp [locIdx, hc]
    · rcases List.mem_cons.mp h with h1 | h1
      · exact absurd h1.symm hc
      · simpa [locIdx, hc] using ih h1

theorem getD_locIdx {C : List Nat} {v : Nat} (h : v ∈ C) : C.getD (locIdx C v) 0 = v := by
  induction C with
  | nil => simp at h
  | cons c rest ih =>
    by_cases hc : c = v
    · simp [locIdx, hc]
    · rcases List.mem_cons.mp h with h1 | h1
      · exact absurd h1.symm hc
      · simpa [locIdx, hc] using ih h1

theorem getD_mem_of_lt {C : List Nat} {i : Nat} (h : i < C.length) : C.getD i 0 ∈ C := by
  rw [List.getD_eq_getElem?_getD, List.getElem?_eq_getElem h]
  exact List.getElem_mem h

theorem locIdx_getD {C : List Nat} (hnd : C.Nodup) {i : Nat} (h : i < C.length) :
    locIdx C (C.getD i 0) = i := by
  induction C generalizing i with
  | nil => simp at h
  | cons c rest ih =>
    cases i with
    | zero => simp [locIdx]
    | succ i =>
      have hi : i < rest.length := Nat.lt_of_succ_lt_succ h
      have hne : ¬c = rest.getD i 0 := fun he =>
        (List.nodup_cons.mp hnd).1 (he ▸ getD_mem_of_lt hi)
      rw [List.getD_cons_succ, locIdx, if_neg hne,
          ih (List.nodup_cons.mp hnd).2 hi]

theorem chain_of_sortedStrict :
    ∀ {C : List Nat}, sortedStrict C = true → List.Chain' (· < ·) C := by
  intro C
  induction C with
  | nil => intro _; exact List.chain'_nil
  | cons a rest ih =>
    cases rest with
    | nil => intro _; simp
    | cons b rest2 =>
      intro h
      rw [sortedStrict, Bool.and_eq_true, decide_eq_true_eq] at h
      exact List.Chain'.cons h.1 (ih h.2)

theorem pairwise_of_sortedStrict {C : List Nat} (h : sortedStrict C = true) :
    C.Pairwise (· < ·) :=
  List.chain'_iff_pairwise.mp (chain_of_sortedStrict h)

theorem nodup_of_sortedStrict {C : List Nat} (h : sortedStrict C = true) : C.Nodup :=
  (pairwise_of_sortedStrict h).imp Nat.ne_of_lt

theorem validMask_spec {n : Nat} {C : List Nat} (h : validMask n C = true) :
    C ≠ [] ∧ sortedStrict C = true ∧ ∀ v ∈ C, v < n := by
  rw [validMask, Bool.and_eq_true, Bool.and_eq_true] at h
  refine ⟨fun he => by simp [he] at h, h.1.2, fun v hv => ?_⟩
  have := List.all_eq_true.mp h.2 v hv
  simpa using this

theorem getD_eq_get {α : Type} {l : List α} {i : Nat} (h : i < l.length) (d : α) :
    l.getD i d = l.get ⟨i, h⟩ := by
  rw [List.getD_eq_getElem?_getD, List.getElem?_eq_getElem h]
  rfl

theorem getD_inj_of_sorted {C : List Nat} (hs : sortedStrict C = true) {i j : Nat}
    (hi : i < C.length) (hj : j < C.length) (he : C.getD i 0 = C.getD j 0) : i = j := by
  have hp := pairwise_of_sortedStrict hs
  rw [List.pairwise_iff_get] at hp
  rw [getD_eq_get hi, getD_eq_get hj] at he
  rcases Nat.lt_trichotomy i j with hij | hij | hij
  · exact absurd (hp ⟨i, hi⟩ ⟨j, hj⟩ hij) (by rw [he]; exact lt_irrefl _)
  · exact hij
  · exact absurd (hp ⟨j, hj⟩ ⟨i, hi⟩ hij) (by rw [he]; exact lt_irrefl _)

/-- `getD` through a `map`, in-range case. -/
theorem getD_map_lt {α β : Type} (f : α → β) {l : List α} {i : Nat} (h : i < l.length)
    (d : β) (d0 : α) : (l.map f).getD i d = f (l.getD i d0) := by
  rw [List.getD_eq_getElem?_getD, List.getElem?_map, List.getElem?_eq_getElem h,
      List.getD_eq_getElem?_getD, List.getElem?_eq_getElem h]
  rfl

/-- `getD` over `(List.range n).map g`, in-range case. -/
theorem getD_map_range {α : Type} (g : Nat → α) {n v : Nat} (h : v < n) (d : α) :
    ((List.range n).map g).getD v d = g v := by
  rw [getD_map_lt g (by simpa using h) d 0, List.getD_eq_getElem?_getD,
      List.getElem?_range h]
  rfl

/-! ### `mapE` lemmas -/

theorem mapE_ok_of {α β : Type} {f : α → Except SDError β} {g : α → β} :
    ∀ {l : List α}, (∀ x ∈ l, f x = .ok (g x)) → mapE f l = .ok (l.map g) := by
  intro l
  induction l with
  | nil => intro _; rfl
  | cons x xs ih =>
    intro h
    rw [mapE, h x (List.mem_cons_self _ _),
      ih (fun y hy => h y (List.mem_cons_of_mem _ hy))]
    rfl

theorem mapE_ok_forall {α β : Type} {f : α → Except SDError β} :
    ∀ {l : List α} {ys : List β}, mapE f l = .ok ys →
      List.Forall₂ (fun x y => f x = .ok y) l ys := by
  intro l
  induction l with
  | nil =>
    intro ys h
    rw [mapE] at h
    cases h
    exact List.Forall₂.nil
  | cons x xs ih =>
    intro ys h
    rw [mapE] at h
    cases hx : f x with
    | error e => rw [hx] at h; exact absurd h (by simp)
    | ok y =>
      rw [hx] at h
      cases hxs : mapE f xs with
      | error e => rw [hxs] at h; exact absurd h (by simp)
      | ok ys2 =>
        rw [hxs] at h
        cases h
        exact List.Forall₂.cons hx (ih hxs)

theorem mapE_ok_length {α β : Type} {f : α → Except SDError β} {l : List α} {ys : List β}
    (h : mapE f l = .ok ys) : ys.length = l.length :=
  (List.Forall₂.length_eq (mapE_ok_forall h)).symm

theorem mapE_error_of {α β : Type} {f : α → Except SDError β} {e : SDError}
    (hall : ∀ x, f x = .error e ∨ ∃ y, f x = .ok y) :
    ∀ {l : List α} {x0 : α}, x0 ∈ l → f x0 = .error e → mapE f l = .error e := by
  intro l
  induction l with
  | nil => intro x0 h; simp at h
  | cons x xs ih =>
    intro x0 hmem hx0
    rw [mapE]
    rcases hall x with hx | ⟨y, hy⟩
    · rw [hx]
    · rw [hy]
      have : x0 ∈ xs := by
        rcases List.mem_cons.mp hmem with h1 | h1
        · rw [h1] at hx0; rw [hx0] at hy; exact absurd hy (by simp)
        · exact h1
      rw [ih this hx0]

/-! ### `minlist` lemmas -/

theorem foldl_min_le_init (l : List ℚ) (a : ℚ) : l.foldl min a ≤ a := by
  induction l generalizing a with
  | nil => exact le_refl a
  | cons x xs ih => exact le_trans (ih (min a x)) (min_le_left a x)

theorem foldl_min_le_mem {l : List ℚ} {x : ℚ} (h : x ∈ l) (a : ℚ) : l.foldl min a ≤ x := by
  induction l generalizing a with
  | nil => simp at h
  | cons y ys ih =>
    rcases List.mem_cons.mp h with h1 | h1
    · subst h1
      rw [List.foldl_cons]
      exact le_trans (foldl_min_le_init ys (min a x)) (min_le_right a x)
    · rw [List.foldl_cons]
      exact ih h1 (min a y)

theorem foldl_min_mem (l : List ℚ) (a : ℚ) : l.foldl min a = a ∨ l.foldl min a ∈ l := by
  induction l generalizing a with
  | nil => exact Or.inl rfl
  | cons x xs ih =>
    rcases ih (min a x) with h1 | h1
    · rcases min_choice a x with h2 | h2
      · exact Or.inl (by rw [List.foldl_cons, h1, h2])
      · exact Or.inr (by rw [List.foldl_cons, h1, h2]; exact List.mem_cons_self _ _)
    · exact Or.inr (List.mem_cons_of_mem _ h1)

theorem minlist_le {l : List ℚ} {x : ℚ} (h : x ∈ l) : minlist l ≤ x := by
  cases l with
  | nil => simp at h
  | cons y ys =>
    rcases List.mem_cons.mp h with h1 | h1
    · exact h1 ▸ foldl_min_le_init ys y
    · exact foldl_min_le_mem h1 y

theorem minlist_mem {l : List ℚ} (h : l ≠ []) : minlist l ∈ l := by
  cases l with
  | nil => exact absurd rfl h
  | cons y ys =>
    rcases foldl_min_mem ys y with h1 | h1
    · rw [minlist, h1]; exact List.mem_cons_self _ _
    · exact List.mem_cons_of_mem _ h1

theorem le_minlist {l : List ℚ} {c : ℚ} (h : ∀ x ∈ l, c ≤ x) (hne : l ≠ []) :
    c ≤ minlist l :=
  h _ (minlist_mem hne)

/-- Exchange of a double minimum over two nonempty lists. -/
theorem minlist_min_comm {α β : Type} (f : α → β → ℚ) (L1 : List α) (L2 : List β)
    (h1 : L1 ≠ []) (h2 : L2 ≠ []) :
    minlist (L1.map fun x => minlist (L2.map fun y => f x y)) =
      minlist (L2.map fun y => minlist (L1.map fun x => f x y)) := by
  have key : ∀ {γ δ : Type} (g : γ → δ → ℚ) (M1 : List γ) (M2 : List δ), M1 ≠ [] → M2 ≠ [] →
      minlist (M1.map fun x => minlist (M2.map fun y => g x y)) ≤
        minlist (M2.map fun y => minlist (M1.map fun x => g x y)) := by
    intro γ δ g M1 M2 hm1 hm2
    have hne : (M2.map fun y => minlist (M1.map fun x => g x y)) ≠ [] := by
      simpa using hm2
    obtain ⟨y0, hy0, hy0e⟩ := List.mem_map.mp (minlist_mem hne)
    have hne2 : (M1.map fun x => g x y0) ≠ [] := by simpa using hm1
    obtain ⟨x0, hx0, hx0e⟩ := List.mem_map.mp (minlist_mem hne2)
    calc minlist (M1.map fun x => minlist (M2.map fun y => g x y))
        ≤ minlist (M2.map fun y => g x0 y) :=
          minlist_le (List.mem_map.mpr ⟨x0, hx0, rfl⟩)
      _ ≤ g x0 y0 := minlist_le (List.mem_map.mpr ⟨y0, hy0, rfl⟩)
      _ = minlist (M1.map fun x => g x y0) := hx0e
      _ = minlist (M2.map fun y => minlist (M1.map fun x => g x y)) := hy0e
  exact le_antisymm (key f L1 L2 h1 h2)
    (key (fun y x => f x y) L2 L1 h2 h1)

/-! ### Reduction helpers for the `Except` do-chains -/

theorem ok_bind {α β : Type} (a : α) (f : α → Except SDError β) :
    (Except.ok a >>= f : Except SDError β) = f a := rfl

theorem error_bind {α β : Type} (e : SDError) (f : α → Except SDError β) :
    (Except.error e >>= f : Except SDError β) = .error e := rfl

theorem surf_keep_cortex_ok {surf : Surface} {C : List Nat}
    (hm : validMask surf.nVerts C = true) :
    surf_keep_cortex surf C = .ok (mkSub surf C) := by
  rw [surf_keep_cortex, if_pos hm]

theorem surf_keep_cortex_error {surf : Surface} {C : List Nat}
    (hm : validMask surf.nVerts C = false) :
    surf_keep_cortex surf C = .error .invalidMask := by
  rw [surf_keep_cortex, if_neg (by rw [hm]; exact Bool.false_ne_true)]

theorem translate_src_ok {src C : List Nat} (h : ∀ v ∈ src, v ∈ C) :
    translate_src src C = .ok (src.map (locIdx C)) := by
  rw [translate_src, if_pos]
  rw [List.all_eq_true]
  intro v hv
  exact decide_eq_true (h v hv)

theorem translate_src_error {src C : List Nat} {v : Nat} (hv : v ∈ src) (hc : v ∉ C) :
    translate_src src C = .error .outOfCortex := by
  rw [translate_src, if_neg]
  intro hall
  rw [List.all_eq_true] at hall
  exact hc (of_decide_eq_true (hall v hv))

theorem translate_src_cases (src C : List Nat) :
    translate_src src C = .error .outOfCortex ∨
      ∃ ts, translate_src src C = .ok ts := by
  rw [translate_src]
  split
  · exact Or.inr ⟨_, rfl⟩
  · exact Or.inl rfl

/-! ### Claim C4: projection fidelity of `recort` -/

/-- C4.  For every distance field `f` of length `|C|` and valid cortex
mask `C` over a surface with `n` vertices, the projected full-surface
vector (the one `dist_calc` and `zone_calc` return) has length `n`, holds
`f[i]` at position `C[i]` for every `i`, and holds exactly `0` at every
position not in `C`. -/
theorem C4_recort_projection {α : Type} [Zero α] (f : List α) (n : Nat) (C : List Nat)
    (hm : validMask n C = true) (_hf : f.length = C.length) :
    (recort f n C).length = n ∧
      (∀ i, i < C.length → (recort f n C).getD (C.getD i 0) 0 = f.getD i 0) ∧
      (∀ v, v < n → v ∉ C → (recort f n C).getD v 0 = 0) := by
  obtain ⟨hne, hs, hlt⟩ := validMask_spec hm
  refine ⟨by simp [recort], ?_, ?_⟩
  · intro i hi
    have hmem : C.getD i 0 ∈ C := getD_mem_of_lt hi
    rw [recort, getD_map_range _ (hlt _ hmem) 0, if_pos hmem,
        locIdx_getD (nodup_of_sortedStrict hs) hi]
  · intro v hv hvC
    rw [recort, getD_map_range _ hv 0, if_neg hvC]

/-- Closed witness for C4 at a concrete mask and field. -/
theorem C4_recort_projection_witness :
    validMask 4 [1, 3] = true ∧ [(3 : ℚ), 7].length = [1, 3].length ∧
      ((recort [(3 : ℚ), 7] 4 [1, 3]).length = 4 ∧
        (∀ i, i < [1, 3].length →
          (recort [(3 : ℚ), 7] 4 [1, 3]).getD ([1, 3].getD i 0) 0 = [(3 : ℚ), 7].getD i 0) ∧
        (∀ v, v < 4 → v ∉ [1, 3] → (recort [(3 : ℚ), 7] 4 [1, 3]).getD v 0 = 0)) :=
  ⟨by decide, by decide, C4_recort_projection [(3 : ℚ), 7] 4 [1, 3] (by decide) (by decide)⟩

/-! ### Claim C8: invalid masks are rejected -/

theorem validMask_false_of {n : Nat} {C : List Nat}
    (h : C = [] ∨ ¬C.Nodup ∨ (∃ v ∈ C, n ≤ v) ∨ ¬C.Sorted (· ≤ ·)) :
    validMask n C = false := by
  cases hv : validMask n C
  · rfl
  · exfalso
    obtain ⟨hne, hs, hlt⟩ := validMask_spec hv
    rcases h with h | h | h | h
    · exact hne h
    · exact h (nodup_of_sortedStrict hs)
    · obtain ⟨v, hvC, hge⟩ := h
      exact absurd (hlt v hvC) (Nat.not_lt.mpr hge)
    · exact h ((pairwise_of_sortedStrict hs).imp fun hab => le_of_lt hab)

/-- C8.  For every surface and every mask that is empty, has duplicate or
out-of-range indices, or is not sorted, all four analysis entry points
fail with `InvalidMaskError` when restricting the surface to the
cortex. -/
theorem C8_invalid_mask_rejected (gd : Solver) (g2 : PairSolver) (surf : Surface)
    (C src : List Nat) (seeds : List (List Nat)) (labels : List (String × List Nat))
    (exceptions : List String) (maxdist : ℚ)
    (h : C = [] ∨ ¬C.Nodup ∨ (∃ v ∈ C, surf.nVerts ≤ v) ∨ ¬C.Sorted (· ≤ ·)) :
    dist_calc gd surf C src = .error .invalidMask ∧
      dist_calc_pairwise g2 surf C maxdist = .error .invalidMask ∧
      zone_calc gd surf C seeds = .error .invalidMask ∧
      dist_calc_matrix gd surf C labels exceptions = .error .invalidMask := by
  have hskc : surf_keep_cortex surf C = .error .invalidMask :=
    surf_keep_cortex_error (validMask_false_of h)
  refine ⟨?_, ?_, ?_, ?_⟩
  · unfold dist_calc
    rw [hskc, error_bind]
  · unfold dist_calc_pairwise
    rw [hskc, error_bind]
  · unfold zone_calc
    rw [hskc, error_bind]
  · unfold dist_calc_matrix
    rw [hskc, error_bind]

/-- Closed witness for C8 at a concrete unsorted mask. -/
theorem C8_invalid_mask_rejected_witness :
    dist_calc (fun _ _ => []) ⟨[(0, 0, 0), (0, 0, 0)], []⟩ [1, 0] [] = .error .invalidMask ∧
      dist_calc_pairwise (fun _ _ => []) ⟨[(0, 0, 0), (0, 0, 0)], []⟩ [1, 0] 1 =
        .error .invalidMask ∧
      zone_calc (fun _ _ => []) ⟨[(0, 0, 0), (0, 0, 0)], []⟩ [1, 0] [] = .error .invalidMask ∧
      dist_calc_matrix (fun _ _ => []) ⟨[(0, 0, 0), (0, 0, 0)], []⟩ [1, 0] [] [] =
        .error .invalidMask :=
  C8_invalid_mask_rejected (fun _ _ => []) (fun _ _ => []) ⟨[(0, 0, 0), (0, 0, 0)], []⟩
    [1, 0] [] [] [] [] 1
    (Or.inr (Or.inr (Or.inr (by decide))))

/-! ### Claim C9: `zone_calc` on an empty seed sequence -/

/-- C9.  For every surface and valid cortex mask, `zone_calc` called with
an empty sequence of seed sets fails (the `[0, :]` indexing of the
zero-row argsorted array is a numpy `IndexError`) instead of returning an
assignment vector. -/
theorem C9_zone_calc_empty_seeds (gd : Solver) (surf : Surface) (C : List Nat)
    (hm : validMask surf.nVerts C = true) :
    zone_calc gd surf C [] = .error .indexError := by
  unfold zone_calc
  rw [surf_keep_cortex_ok hm, ok_bind]
  rfl

/-- Closed witness for C9 at a concrete surface and mask. -/
theorem C9_zone_calc_empty_seeds_witness :
    zone_calc (fun _ _ => []) ⟨[(0, 0, 0), (0, 0, 0)], []⟩ [0, 1] [] = .error .indexError :=
  C9_zone_calc_empty_seeds (fun _ _ => []) ⟨[(0, 0, 0), (0, 0, 0)], []⟩ [0, 1] (by decide)

/-! ### Claim C7: out-of-cortex sources are rejected -/

/-- C7.  For every cortex mask and source set containing a full-surface
index not in the mask, translating the sources fails with
`OutOfCortexError`, and the failure propagates out of `dist_calc`,
`zone_calc` and `dist_calc_matrix` instead of the vertex being silently
dropped. -/
theorem C7_out_of_cortex (gd : Solver) (surf : Surface) (C src : List Nat)
    (seeds : List (List Nat)) (labels : List (String × List Nat)) (exceptions : List String) :
    (∀ v ∈ src, v ∉ C → translate_src src C = .error .outOfCortex) ∧
      (validMask surf.nVerts C = true → ∀ v ∈ src, v ∉ C →
        dist_calc gd surf C src = .error .outOfCortex) ∧
      (validMask surf.nVerts C = true → ∀ s ∈ seeds, ∀ v ∈ s, v ∉ C →
        zone_calc gd surf C seeds = .error .outOfCortex) ∧
      (validMask surf.nVerts C = true → ∀ r ∈ roisOf labels exceptions,
        ∀ v ∈ lookupLabel labels r, v ∉ C →
        dist_calc_matrix gd surf C labels exceptions = .error .outOfCortex) := by
  refine ⟨fun v hv hc => translate_src_error hv hc, ?_, ?_, ?_⟩
  · intro hm v hv hc
    unfold dist_calc
    rw [surf_keep_cortex_ok hm, ok_bind, translate_src_error hv hc, error_bind]
  · intro hm s0 hs0 v hv hc
    unfold zone_calc
    rw [surf_keep_cortex_ok hm, ok_bind]
    have hall : ∀ s : List Nat,
        (translate_src s C >>= fun ts => Except.ok (gd (mkSub surf C) ts)) =
            Except.error SDError.outOfCortex ∨
          ∃ y, (translate_src s C >>= fun ts => Except.ok (gd (mkSub surf C) ts)) =
            Except.ok y := by
      intro s
      rcases translate_src_cases s C with h1 | ⟨ts, h1⟩
      · rw [h1]; exact Or.inl rfl
      · rw [h1]; exact Or.inr ⟨_, rfl⟩
    have hbad : (translate_src s0 C >>= fun ts => Except.ok (gd (mkSub surf C) ts)) =
        Except.error SDError.outOfCortex := by
      rw [translate_src_error hv hc]; rfl
    rw [mapE_error_of hall hs0 hbad, error_bind]
  · intro hm r hr v hv hc
    unfold dist_calc_matrix
    rw [surf_keep_cortex_ok hm, ok_bind]
    dsimp only
    have hall : ∀ roi : String,
        (translate_src (lookupLabel labels roi) C >>=
            fun ts => Except.ok (gd (mkSub surf C) ts)) =
            Except.error SDError.outOfCortex ∨
          ∃ y, (translate_src (lookupLabel labels roi) C >>=
            fun ts => Except.ok (gd (mkSub surf C) ts)) = Except.ok y := by
      intro roi
      rcases translate_src_cases (lookupLabel labels roi) C with h1 | ⟨ts, h1⟩
      · rw [h1]; exact Or.inl rfl
      · rw [h1]; exact Or.inr ⟨_, rfl⟩
    have hbad : (translate_src (lookupLabel labels r) C >>=
        fun ts => Except.ok (gd (mkSub surf C) ts)) =
        Except.error SDError.outOfCortex := by
      rw [translate_src_error hv hc]; rfl
    rw [mapE_error_of hall hr hbad, error_bind]

/-- Closed witness for C7: a two-vertex cortex on a three-vertex surface
with vertex `2` outside the cortex. -/
theorem C7_out_of_cortex_witness :
    translate_src [2] [0, 1] = .error .outOfCortex ∧
      dist_calc (fun _ _ => []) ⟨[(0, 0, 0), (0, 0, 0), (0, 0, 0)], []⟩ [0, 1] [2] =
        .error .outOfCortex ∧
      zone_calc (fun _ _ => []) ⟨[(0, 0, 0), (0, 0, 0), (0, 0, 0)], []⟩ [0, 1] [[0], [2]] =
        .error .outOfCortex ∧
      dist_calc_matrix (fun _ _ => []) ⟨[(0, 0, 0), (0, 0, 0), (0, 0, 0)], []⟩ [0, 1]
        [("A", [0]), ("B", [2])] [] = .error .outOfCortex := by
  have h := C7_out_of_cortex (fun _ _ => []) ⟨[(0, 0, 0), (0, 0, 0), (0, 0, 0)], []⟩
    [0, 1] [2] [[0], [2]] [("A", [0]), ("B", [2])] []
  exact ⟨h.1 2 (by decide) (by decide),
    h.2.1 (by decide) 2 (by decide) (by decide),
    h.2.2.1 (by decide) [2] (by decide) 2 (by decide) (by decide),
    h.2.2.2 (by decide) "B" (by decide) 2 (by decide) (by decide)⟩

/-! ### Claim C10: zone ids lie in `1..k` on the cortex, `0` elsewhere -/

theorem surf_keep_cortex_ok_inv {surf : Surface} {C : List Nat} {sub : Subsurface}
    (h : surf_keep_cortex surf C = .ok sub) :
    validMask surf.nVerts C = true ∧ sub = mkSub surf C := by
  rw [surf_keep_cortex] at h
  split at h
  · next hm => cases h; exact ⟨hm, rfl⟩
  · exact absurd h (by simp)

theorem getD_zero_mem {l : List Nat} (h : l ≠ []) : l.getD 0 0 ∈ l := by
  cases l with
  | nil => exact absurd rfl h
  | cons x xs => exact List.mem_cons_self _ _

/-- C10.  Whenever `zone_calc` returns an assignment vector for `k` seed
sets, every cortex position holds a zone id in `1..k` and every
non-cortex position holds `0`. -/
theorem C10_zone_assignment_range (gd : Solver) (surf : Surface) (C : List Nat)
    (seeds : List (List Nat)) (z : List Nat)
    (hok : zone_calc gd surf C seeds = .ok z) :
    z.length = surf.nVerts ∧
      ∀ v, v < surf.nVerts →
        (v ∈ C → 1 ≤ z.getD v 0 ∧ z.getD v 0 ≤ seeds.length) ∧
        (v ∉ C → z.getD v 0 = 0) := by
  unfold zone_calc at hok
  cases hskc : surf_keep_cortex surf C with
  | error e => rw [hskc, error_bind] at hok; exact absurd hok (by simp)
  | ok sub =>
    rw [hskc, ok_bind] at hok
    cases hrows : mapE (fun s => translate_src s C >>= fun ts => Except.ok (gd sub ts)) seeds with
    | error e => rw [hrows, error_bind] at hok; exact absurd hok (by simp)
    | ok rows =>
      rw [hrows, ok_bind] at hok
      by_cases hk : seeds.length = 0
      · rw [if_pos hk] at hok; exact absurd hok (by simp)
      · rw [if_neg hk] at hok
        have hz : recort ((List.range C.length).map (fun j =>
            (argsortNp (rows.map (fun r => r.getD j 0))).getD 0 0 + 1)) surf.nVerts C = z := by
          cases hok; rfl
        subst hz
        refine ⟨by simp [recort], ?_⟩
        intro v hv
        constructor
        · intro hvc
          rw [recort, getD_map_range _ hv 0, if_pos hvc,
              getD_map_range _ (locIdx_lt_length hvc) 0]
          refine ⟨Nat.succ_le_succ (Nat.zero_le _), ?_⟩
          have hcl : (rows.map (fun r => r.getD (locIdx C v) 0)).length = seeds.length := by
            rw [List.length_map]
            exact mapE_ok_length hrows
          have hne : argsortNp (rows.map (fun r => r.getD (locIdx C v) 0)) ≠ [] := by
            intro he
            have := argsortNp_length (rows.map (fun r => r.getD (locIdx C v) 0))
            rw [he, hcl] at this
            exact hk this.symm
          have hlt := argsortNp_lt (getD_zero_mem hne)
          rw [hcl] at hlt
          exact Nat.succ_le_of_lt hlt
        · intro hvc
          rw [recort, getD_map_range _ hv 0, if_neg hvc]

/-- Closed witness for C10: two seed sets on a three-vertex surface whose
cortex is `{0, 1}`. -/
theorem C10_zone_assignment_range_witness :
    zone_calc (fun _ ts => if ts.getD 0 0 = 0 then [(0 : ℚ), 1] else [1, 0])
        ⟨[(0, 0, 0), (0, 0, 0), (0, 0, 0)], []⟩ [0, 1] [[0], [1]] = .ok [1, 2, 0] ∧
      ([1, 2, 0] : List Nat).length = 3 ∧
      (∀ v, v < 3 →
        (v ∈ [0, 1] → 1 ≤ ([1, 2, 0] : List Nat).getD v 0 ∧
          ([1, 2, 0] : List Nat).getD v 0 ≤ ([[0], [1]] : List (List Nat)).length) ∧
        (v ∉ [0, 1] → ([1, 2, 0] : List Nat).getD v 0 = 0)) := by
  have hok : zone_calc (fun _ ts => if ts.getD 0 0 = 0 then [(0 : ℚ), 1] else [1, 0])
      ⟨[(0, 0, 0), (0, 0, 0), (0, 0, 0)], []⟩ [0, 1] [[0], [1]] = .ok [1, 2, 0] := rfl
  have h := C10_zone_assignment_range
    (fun _ ts => if ts.getD 0 0 = 0 then [(0 : ℚ), 1] else [1, 0])
    ⟨[(0, 0, 0), (0, 0, 0), (0, 0, 0)], []⟩ [0, 1] [[0], [1]] [1, 2, 0] hok
  exact ⟨hok, h.1, h.2⟩

/-! ### Characterization of `dist_calc_matrix` on successful runs -/

theorem getD_mem {α : Type} {l : List α} {i : Nat} (h : i < l.length) (d : α) :
    l.getD i d ∈ l := by
  rw [List.getD_eq_getElem?_getD, List.getElem?_eq_getElem h]
  exact List.getElem_mem h

theorem minOver_ok {row : List ℚ} {ts : List Nat} (h : ts ≠ []) :
    minOver row ts = .ok (minlist (ts.map (fun j => row.getD j 0))) := by
  cases ts with
  | nil => exact absurd rfl h
  | cons x xs => rfl

theorem tsOf_ne_nil {labels : List (String × List Nat)} {C : List Nat} {r : String}
    (h : lookupLabel labels r ≠ []) : tsOf labels C r ≠ [] := by
  rw [tsOf]
  simpa using h

/-- On a valid mask, with every retained region nonempty and inside the
cortex, `dist_calc_matrix` returns the region list and the matrix of
row-wise minima of the per-region distance fields. -/
theorem dist_calc_matrix_ok (gd : Solver) (surf : Surface) (C : List Nat)
    (labels : List (String × List Nat)) (exceptions : List String)
    (hm : validMask surf.nVerts C = true)
    (hmem : ∀ r ∈ roisOf labels exceptions, lookupLabel labels r ≠ [] ∧
      ∀ v ∈ lookupLabel labels r, v ∈ C) :
    dist_calc_matrix gd surf C labels exceptions =
      .ok ((roisOf labels exceptions).map (fun rb =>
        (roisOf labels exceptions).map (fun ra =>
          minlist ((tsOf labels C rb).map (fun j =>
            (gd (mkSub surf C) (tsOf labels C ra)).getD j 0)))),
        roisOf labels exceptions) := by
  unfold dist_calc_matrix
  rw [surf_keep_cortex_ok hm, ok_bind]
  dsimp only
  have h1 : mapE (fun roi => translate_src (lookupLabel labels roi) C >>= fun ts =>
      Except.ok (gd (mkSub surf C) ts)) (roisOf labels exceptions) =
      .ok ((roisOf labels exceptions).map (fun ra => gd (mkSub surf C) (tsOf labels C ra))) := by
    apply mapE_ok_of
    intro r hr
    rw [translate_src_ok (hmem r hr).2, ok_bind]
    rfl
  rw [h1, ok_bind]
  have h2 : mapE (fun roi => translate_src (lookupLabel labels roi) C >>= fun ts =>
      mapE (fun row => minOver row ts)
        ((roisOf labels exceptions).map (fun ra => gd (mkSub surf C) (tsOf labels C ra))))
      (roisOf labels exceptions) =
      .ok ((roisOf labels exceptions).map (fun rb =>
        (roisOf labels exceptions).map (fun ra =>
          minlist ((tsOf labels C rb).map (fun j =>
            (gd (mkSub surf C) (tsOf labels C ra)).getD j 0))))) := by
    apply mapE_ok_of
    intro r hr
    rw [translate_src_ok (hmem r hr).2, ok_bind]
    have hinner : mapE (fun row => minOver row ((lookupLabel labels r).map (locIdx C)))
        ((roisOf labels exceptions).map (fun ra => gd (mkSub surf C) (tsOf labels C ra))) =
        .ok (((roisOf labels exceptions).map
          (fun ra => gd (mkSub surf C) (tsOf labels C ra))).map (fun row =>
            minlist ((tsOf labels C r).map (fun j => row.getD j 0)))) := by
      apply mapE_ok_of
      intro row hrow
      exact minOver_ok (tsOf_ne_nil (hmem r hr).1)
    rw [hinner, List.map_map]
    rfl
  rw [h2, ok_bind]

/-! ### Claim C6: retained label names and matrix shape -/

theorem forall₂_mem_right {α β : Type} {R : α → β → Prop} :
    ∀ {l : List α} {ys : List β}, List.Forall₂ R l ys → ∀ y ∈ ys, ∃ x ∈ l, R x y := by
  intro l ys h
  induction h with
  | nil => intro y hy; simp at hy
  | cons hR _ ih =>
    intro y hy
    rcases List.mem_cons.mp hy with h1 | h1
    · exact ⟨_, List.mem_cons_self _ _, h1 ▸ hR⟩
    · obtain ⟨x, hx, hRx⟩ := ih y h1
      exact ⟨x, List.mem_cons_of_mem _ hx, hRx⟩

/-- C6.  Whenever `dist_calc_matrix` succeeds, the returned region names
are exactly the label names not in the exclusion list, in order of
appearance in the label collection (the default exclusions being
`Unknown` and `Medial_wall`), and the matrix is square with one
row/column per retained name. -/
theorem C6_matrix_labels (gd : Solver) (surf : Surface) (C : List Nat)
    (labels : List (String × List Nat)) (exceptions : List String)
    (M : List (List ℚ)) (rois : List String)
    (hok : dist_calc_matrix gd surf C labels exceptions = .ok (M, rois)) :
    rois = (labels.map Prod.fst).filter (fun a => !exceptions.contains a) ∧
      defaultExceptions = ["Unknown", "Medial_wall"] ∧
      M.length = rois.length ∧
      ∀ row ∈ M, row.length = rois.length := by
  unfold dist_calc_matrix at hok
  cases hskc : surf_keep_cortex surf C with
  | error e => rw [hskc, error_bind] at hok; exact absurd hok (by simp)
  | ok sub =>
    rw [hskc, ok_bind] at hok
    dsimp only at hok
    cases hroi : mapE (fun roi => translate_src (lookupLabel labels roi) C >>= fun ts =>
        Except.ok (gd sub ts)) (roisOf labels exceptions) with
    | error e => rw [hroi, error_bind] at hok; exact absurd hok (by simp)
    | ok dist_roi =>
      rw [hroi, ok_bind] at hok
      cases hmat : mapE (fun roi => translate_src (lookupLabel labels roi) C >>= fun ts =>
          mapE (fun row => minOver row ts) dist_roi) (roisOf labels exceptions) with
      | error e => rw [hmat, error_bind] at hok; exact absurd hok (by simp)
      | ok dist_mat =>
        rw [hmat, ok_bind] at hok
        have hM : dist_mat = M ∧ roisOf labels exceptions = rois := by
          cases hok; exact ⟨rfl, rfl⟩
        obtain ⟨hM1, hM2⟩ := hM
        subst hM1
        subst hM2
        refine ⟨rfl, rfl, mapE_ok_length hmat, ?_⟩
        intro row hrow
        obtain ⟨r, _, hr⟩ := forall₂_mem_right (mapE_ok_forall hmat) row hrow
        cases hts : translate_src (lookupLabel labels r) C with
        | error e => rw [hts, error_bind] at hr; exact absurd hr (by simp)
        | ok ts =>
          rw [hts, ok_bind] at hr
          rw [mapE_ok_length hr, mapE_ok_length hroi]

/-- Closed witness for C6 with the default exclusion list: the
`Medial_wall` label is dropped, `A` and `B` are retained in order. -/
theorem C6_matrix_labels_witness :
    dist_calc_matrix (fun _ ts => if ts.getD 0 0 = 0 then [(0 : ℚ), 1] else [1, 0])
        ⟨[(0, 0, 0), (0, 0, 0)], []⟩ [0, 1]
        [("A", [0]), ("Medial_wall", [1]), ("B", [1])] defaultExceptions =
      .ok ([[0, 1], [1, 0]], ["A", "B"]) ∧
      (["A", "B"] : List String) =
        ([("A", [0]), ("Medial_wall", [1]), ("B", [1])].map Prod.fst).filter
          (fun a => !defaultExceptions.contains a) ∧
      defaultExceptions = ["Unknown", "Medial_wall"] ∧
      ([[(0 : ℚ), 1], [1, 0]] : List (List ℚ)).length = (["A", "B"] : List String).length ∧
      (∀ row ∈ ([[(0 : ℚ), 1], [1, 0]] : List (List ℚ)),
        row.length = (["A", "B"] : List String).length) := by
  have hok : dist_calc_matrix (fun _ ts => if ts.getD 0 0 = 0 then [(0 : ℚ), 1] else [1, 0])
      ⟨[(0, 0, 0), (0, 0, 0)], []⟩ [0, 1]
      [("A", [0]), ("Medial_wall", [1]), ("B", [1])] defaultExceptions =
      .ok ([[0, 1], [1, 0]], ["A", "B"]) := rfl
  have h := C6_matrix_labels (fun _ ts => if ts.getD 0 0 = 0 then [(0 : ℚ), 1] else [1, 0])
    ⟨[(0, 0, 0), (0, 0, 0)], []⟩ [0, 1]
    [("A", [0]), ("Medial_wall", [1]), ("B", [1])] defaultExceptions
    [[0, 1], [1, 0]] ["A", "B"] hok
  exact ⟨hok, h.1, h.2.1, h.2.2.1, h.2.2.2⟩

/-! ### Claims C2 and C3: entries of the region distance matrix -/

theorem map_congr_mem {α β : Type} {l : List α} {f g : α → β}
    (h : ∀ x ∈ l, f x = g x) : l.map f = l.map g := by
  induction l with
  | nil => rfl
  | cons x xs ih =>
    rw [List.map_cons, List.map_cons, h x (List.mem_cons_self _ _),
      ih (fun y hy => h y (List.mem_cons_of_mem _ hy))]

theorem minlist_geo_comm (geo : Nat → Nat → ℚ) (A B : List Nat) (hA : A ≠ []) (hB : B ≠ []) :
    minlist (A.map fun j => minlist (B.map fun s => geo s j)) =
      minlist (B.map fun s => minlist (A.map fun j => geo s j)) :=
  minlist_min_comm (fun j s => geo s j) A B hA hB

/-- For a symmetric kernel, the two nestings of the double minimum
coincide. -/
theorem double_min_swap (geo : Nat → Nat → ℚ) (hsym : ∀ x y, geo x y = geo y x)
    (A B : List Nat) (hA : A ≠ []) (hB : B ≠ []) :
    minlist (A.map fun j => minlist (B.map fun s => geo s j)) =
      minlist (B.map fun j => minlist (A.map fun s => geo s j)) := by
  rw [minlist_geo_comm geo A B hA hB]
  exact congrArg minlist (map_congr_mem (fun y _ =>
    congrArg minlist (map_congr_mem (fun x _ => hsym y x))))

theorem tsOf_lt {labels : List (String × List Nat)} {C : List Nat} {r : String}
    (hsub : ∀ v ∈ lookupLabel labels r, v ∈ C) :
    ∀ j ∈ tsOf labels C r, j < C.length := by
  intro j hj
  rw [tsOf] at hj
  obtain ⟨v, hv, he⟩ := List.mem_map.mp hj
  exact he ▸ locIdx_lt_length (hsub v hv)

/-- Closed form of entry `(a, b)` of the matrix built by
`dist_calc_matrix` when the solver satisfies the single-source contract
for the kernel `geo` on cortex-local indices. -/
theorem mEntry_formula (gd : Solver) (geo : Nat → Nat → ℚ) (surf : Surface) (C : List Nat)
    (labels : List (String × List Nat)) (exceptions : List String)
    (hgd : ∀ ts : List Nat, gd (mkSub surf C) ts =
      (List.range C.length).map (fun j => minlist (ts.map (fun s => geo s j))))
    (hmem : ∀ r ∈ roisOf labels exceptions, lookupLabel labels r ≠ [] ∧
      ∀ v ∈ lookupLabel labels r, v ∈ C)
    {a b : Nat} (ha : a < (roisOf labels exceptions).length)
    (hb : b < (roisOf labels exceptions).length) :
    mEntry ((roisOf labels exceptions).map (fun rb => (roisOf labels exceptions).map (fun ra =>
        minlist ((tsOf labels C rb).map (fun j =>
          (gd (mkSub surf C) (tsOf labels C ra)).getD j 0))))) a b =
      minlist ((tsOf labels C ((roisOf labels exceptions).getD a "")).map (fun j =>
        minlist ((tsOf labels C ((roisOf labels exceptions).getD b "")).map
          (fun s => geo s j)))) := by
  rw [mEntry, getD_map_lt _ ha ([] : List ℚ) "", getD_map_lt _ hb (0 : ℚ) ""]
  apply congrArg minlist
  apply map_congr_mem
  intro j hj
  have hjlt : j < C.length :=
    tsOf_lt (hmem _ (getD_mem ha "")).2 j hj
  rw [hgd, getD_map_range _ hjlt 0]

/-- C2.  Under the solver contract for a symmetric nonnegative kernel
vanishing on the diagonal, the matrix returned by `dist_calc_matrix` (for
at least two retained regions, all nonempty and inside the cortex) is
symmetric and has zero diagonal. -/
theorem C2_matrix_symmetric (gd : Solver) (geo : Nat → Nat → ℚ) (surf : Surface)
    (C : List Nat) (labels : List (String × List Nat)) (exceptions : List String)
    (hgd : ∀ ts : List Nat, gd (mkSub surf C) ts =
      (List.range C.length).map (fun j => minlist (ts.map (fun s => geo s j))))
    (hsym : ∀ x y, geo x y = geo y x)
    (hzero : ∀ x, geo x x = 0)
    (hpos : ∀ x y, 0 ≤ geo x y)
    (hm : validMask surf.nVerts C = true)
    (hmem : ∀ r ∈ roisOf labels exceptions, lookupLabel labels r ≠ [] ∧
      ∀ v ∈ lookupLabel labels r, v ∈ C)
    (_h2 : 2 ≤ (roisOf labels exceptions).length)
    (M : List (List ℚ)) (rois : List String)
    (hok : dist_calc_matrix gd surf C labels exceptions = .ok (M, rois)) :
    (∀ a b, a < rois.length → b < rois.length → mEntry M a b = mEntry M b a) ∧
      (∀ a, a < rois.length → mEntry M a a = 0) := by
  rw [dist_calc_matrix_ok gd surf C labels exceptions hm hmem] at hok
  have hpair := congrArg Prod.fst (Except.ok.inj hok)
  have hpair2 := congrArg Prod.snd (Except.ok.inj hok)
  dsimp at hpair hpair2
  subst hpair
  subst hpair2
  constructor
  · intro a b ha hb
    rw [mEntry_formula gd geo surf C labels exceptions hgd hmem ha hb,
        mEntry_formula gd geo surf C labels exceptions hgd hmem hb ha]
    exact double_min_swap geo hsym _ _
      (tsOf_ne_nil (hmem _ (getD_mem ha "")).1)
      (tsOf_ne_nil (hmem _ (getD_mem hb "")).1)
  · intro a ha
    rw [mEntry_formula gd geo surf C labels exceptions hgd hmem ha ha]
    have hAne : tsOf labels C ((roisOf labels exceptions).getD a "") ≠ [] :=
      tsOf_ne_nil (hmem _ (getD_mem ha "")).1
    have hj0 := getD_zero_mem hAne
    apply le_antisymm
    · calc minlist ((tsOf labels C ((roisOf labels exceptions).getD a "")).map (fun j =>
            minlist ((tsOf labels C ((roisOf labels exceptions).getD a "")).map
              (fun s => geo s j))))
          ≤ minlist ((tsOf labels C ((roisOf labels exceptions).getD a "")).map (fun s =>
              geo s ((tsOf labels C ((roisOf labels exceptions).getD a "")).getD 0 0))) :=
            minlist_le (List.mem_map.mpr ⟨_, hj0, rfl⟩)
        _ ≤ geo ((tsOf labels C ((roisOf labels exceptions).getD a "")).getD 0 0)
              ((tsOf labels C ((roisOf labels exceptions).getD a "")).getD 0 0) :=
            minlist_le (List.mem_map.mpr ⟨_, hj0, rfl⟩)
        _ = 0 := hzero _
    · refine le_minlist ?_ (by simpa using hAne)
      intro x hx
      obtain ⟨j, _, he⟩ := List.mem_map.mp hx
      rw [← he]
      refine le_minlist ?_ (by simpa using hAne)
      intro y hy
      obtain ⟨s, _, he2⟩ := List.mem_map.mp hy
      rw [← he2]
      exact hpos s j

/-- Minimum of the kernel over all pairs drawn from two vertex lists: the
minimum geodesic distance between any vertex of the first region and any
vertex of the second. -/
def pairMin (geo : Nat → Nat → ℚ) (A B : List Nat) : ℚ :=
  minlist (A.map (fun s => minlist (B.map (fun t => geo s t))))

/-- C3.  Under the solver contract for a symmetric kernel, entry `(a, b)`
of the matrix returned by `dist_calc_matrix` equals the minimum over the
members `v` of region `b` of region `a`'s distance field at the
cortex-local index of `v`, and equals the minimum geodesic distance
between any vertex of region `a` and any vertex of region `b`. -/
theorem C3_matrix_entry_minima (gd : Solver) (geo : Nat → Nat → ℚ) (surf : Surface)
    (C : List Nat) (labels : List (String × List Nat)) (exceptions : List String)
    (hgd : ∀ ts : List Nat, gd (mkSub surf C) ts =
      (List.range C.length).map (fun j => minlist (ts.map (fun s => geo s j))))
    (hsym : ∀ x y, geo x y = geo y x)
    (hm : validMask surf.nVerts C = true)
    (hmem : ∀ r ∈ roisOf labels exceptions, lookupLabel labels r ≠ [] ∧
      ∀ v ∈ lookupLabel labels r, v ∈ C)
    (M : List (List ℚ)) (rois : List String)
    (hok : dist_calc_matrix gd surf C labels exceptions = .ok (M, rois)) :
    ∀ a b, a < rois.length → b < rois.length →
      mEntry M a b = minlist ((lookupLabel labels (rois.getD b "")).map (fun v =>
        (gd (mkSub surf C) (tsOf labels C (rois.getD a ""))).getD (locIdx C v) 0)) ∧
      mEntry M a b =
        pairMin geo (tsOf labels C (rois.getD a "")) (tsOf labels C (rois.getD b "")) := by
  rw [dist_calc_matrix_ok gd surf C labels exceptions hm hmem] at hok
  have hpair := congrArg Prod.fst (Except.ok.inj hok)
  have hpair2 := congrArg Prod.snd (Except.ok.inj hok)
  dsimp at hpair hpair2
  subst hpair
  subst hpair2
  intro a b ha hb
  have hform := mEntry_formula gd geo surf C labels exceptions hgd hmem ha hb
  have hAne : tsOf labels C ((roisOf labels exceptions).getD a "") ≠ [] :=
    tsOf_ne_nil (hmem _ (getD_mem ha "")).1
  have hBne : tsOf labels C ((roisOf labels exceptions).getD b "") ≠ [] :=
    tsOf_ne_nil (hmem _ (getD_mem hb "")).1
  constructor
  · rw [hform]
    have e0 : (lookupLabel labels ((roisOf labels exceptions).getD b "")).map (fun v =>
        (gd (mkSub surf C) (tsOf labels C ((roisOf labels exceptions).getD a ""))).getD
          (locIdx C v) 0) =
        (tsOf labels C ((roisOf labels exceptions).getD b "")).map (fun j =>
          (gd (mkSub surf C) (tsOf labels C ((roisOf labels exceptions).getD a ""))).getD
            j 0) := by
      simp only [tsOf, List.map_map]
      rfl
    rw [e0]
    have e1 : (tsOf labels C ((roisOf labels exceptions).getD b "")).map (fun j =>
        (gd (mkSub surf C) (tsOf labels C ((roisOf labels exceptions).getD a ""))).getD
          j 0) =
        (tsOf labels C ((roisOf labels exceptions).getD b "")).map (fun j =>
          minlist ((tsOf labels C ((roisOf labels exceptions).getD a "")).map
            (fun s => geo s j))) :=
      map_congr_mem (fun j hj => by
        rw [hgd, getD_map_range _ (tsOf_lt (hmem _ (getD_mem hb "")).2 j hj) 0])
    rw [e1]
    exact double_min_swap geo hsym _ _ hAne hBne
  · rw [hform, pairMin]
    exact congrArg minlist (map_congr_mem (fun x _ =>
      congrArg minlist (map_congr_mem (fun y _ => hsym y x))))

/-! ### Concrete instantiations shared by the C2 and C3 witnesses -/

/-- Discrete metric kernel used by the witnesses. -/
def geoW : Nat → Nat → ℚ := fun x y => if x = y then 0 else 1

/-- Solver that fulfills the single-source contract for `geoW` on a
two-vertex cortex. -/
def gdW : Solver := fun _ ts => (List.range 2).map (fun j => minlist (ts.map (fun s => geoW s j)))

/-- Two-vertex surface for the witnesses. -/
def surfW2 : Surface := ⟨[(0, 0, 0), (0, 0, 0)], []⟩

/-- Two singleton regions for the witnesses. -/
def labelsW : List (String × List Nat) := [("A", [0]), ("B", [1])]

theorem geoW_sym : ∀ x y, geoW x y = geoW y x := by
  intro x y
  unfold geoW
  by_cases h : x = y
  · rw [h]
  · rw [if_neg h, if_neg (fun he => h he.symm)]

theorem geoW_zero : ∀ x, geoW x x = 0 := fun _ => if_pos rfl

theorem geoW_pos : ∀ x y, 0 ≤ geoW x y := by
  intro x y
  unfold geoW
  split
  · exact le_refl 0
  · norm_num

theorem labelsW_mem : ∀ r ∈ roisOf labelsW [], lookupLabel labelsW r ≠ [] ∧
    ∀ v ∈ lookupLabel labelsW r, v ∈ [0, 1] := by decide

/-- Closed witness for C2 on the discrete metric with regions
`A = {0}`, `B = {1}`: the matrix is `[[0, 1], [1, 0]]`. -/
theorem C2_matrix_symmetric_witness :
    dist_calc_matrix gdW surfW2 [0, 1] labelsW [] = .ok ([[0, 1], [1, 0]], ["A", "B"]) ∧
      (∀ a b, a < (["A", "B"] : List String).length → b < (["A", "B"] : List String).length →
        mEntry [[0, 1], [1, 0]] a b = mEntry [[0, 1], [1, 0]] b a) ∧
      (∀ a, a < (["A", "B"] : List String).length → mEntry [[0, 1], [1, 0]] a a = 0) := by
  have hok : dist_calc_matrix gdW surfW2 [0, 1] labelsW [] =
      .ok ([[0, 1], [1, 0]], ["A", "B"]) := rfl
  have h := C2_matrix_symmetric gdW geoW surfW2 [0, 1] labelsW [] (fun _ => rfl)
    geoW_sym geoW_zero geoW_pos (by decide) labelsW_mem (by decide)
    [[0, 1], [1, 0]] ["A", "B"] hok
  exact ⟨hok, h.1, h.2⟩

/-- Closed witness for C3 on the same instantiation. -/
theorem C3_matrix_entry_minima_witness :
    dist_calc_matrix gdW surfW2 [0, 1] labelsW [] = .ok ([[0, 1], [1, 0]], ["A", "B"]) ∧
      (∀ a b, a < (["A", "B"] : List String).length → b < (["A", "B"] : List String).length →
        mEntry [[0, 1], [1, 0]] a b =
          minlist ((lookupLabel labelsW ((["A", "B"] : List String).getD b "")).map (fun v =>
            (gdW (mkSub surfW2 [0, 1])
              (tsOf labelsW [0, 1] ((["A", "B"] : List String).getD a ""))).getD
                (locIdx [0, 1] v) 0)) ∧
        mEntry [[0, 1], [1, 0]] a b =
          pairMin geoW (tsOf labelsW [0, 1] ((["A", "B"] : List String).getD a ""))
            (tsOf labelsW [0, 1] ((["A", "B"] : List String).getD b ""))) := by
  have hok : dist_calc_matrix gdW surfW2 [0, 1] labelsW [] =
      .ok ([[0, 1], [1, 0]], ["A", "B"]) := rfl
  have h := C3_matrix_entry_minima gdW geoW surfW2 [0, 1] labelsW [] (fun _ => rfl)
    geoW_sym (by decide) labelsW_mem [[0, 1], [1, 0]] ["A", "B"] hok
  exact ⟨hok, h⟩

/-! ### Claim C5: bounded pairwise matrix -/

/-- C5.  Under the bounded all-pairs solver contract (stored values are at
most `maxdist`, stored indices are cortex-local, and no pair at geodesic
distance above `maxdist` is stored), every entry of the matrix returned by
`dist_calc_pairwise` has value at most `maxdist`, and no pair of cortex
vertices at geodesic distance above `maxdist` has an entry. -/
theorem C5_pairwise_bounded (g2 : PairSolver) (geo2 : Nat → Nat → ℚ) (surf : Surface)
    (C : List Nat) (maxdist : ℚ) (M : List (Nat × Nat × ℚ))
    (hvals : ∀ e ∈ g2 (mkSub surf C) maxdist, e.2.2 ≤ maxdist)
    (hdom : ∀ e ∈ g2 (mkSub surf C) maxdist, e.1 < C.length ∧ e.2.1 < C.length)
    (hfar : ∀ i j : Nat, maxdist < geo2 i j → ∀ q : ℚ, (i, j, q) ∉ g2 (mkSub surf C) maxdist)
    (hok : dist_calc_pairwise g2 surf C maxdist = .ok M) :
    (∀ e ∈ M, e.2.2 ≤ maxdist) ∧
      (∀ i j, i < C.length → j < C.length → maxdist < geo2 i j →
        ∀ q : ℚ, (C.getD i 0, C.getD j 0, q) ∉ M) := by
  unfold dist_calc_pairwise at hok
  cases hskc : surf_keep_cortex surf C with
  | error e => rw [hskc, error_bind] at hok; exact absurd hok (by simp)
  | ok sub =>
    obtain ⟨hm, hsub⟩ := surf_keep_cortex_ok_inv hskc
    subst hsub
    rw [hskc, ok_bind] at hok
    have hM : recort2d (g2 (mkSub surf C) maxdist) C = M := by cases hok; rfl
    subst hM
    have hs : sortedStrict C = true := (validMask_spec hm).2.1
    constructor
    · intro e he
      obtain ⟨e0, he0, heq⟩ := List.mem_map.mp he
      have : e.2.2 = e0.2.2 := by rw [← heq]
      rw [this]
      exact hvals e0 he0
    · intro i j hi hj hd q hmem
      obtain ⟨⟨a, b, c⟩, hmem0, heq⟩ := List.mem_map.mp hmem
      simp only [Prod.mk.injEq] at heq
      obtain ⟨h1, h2, h3⟩ := heq
      have ha : a = i := getD_inj_of_sorted hs (hdom _ hmem0).1 hi h1
      have hb : b = j := getD_inj_of_sorted hs (hdom _ hmem0).2 hj h2
      subst ha
      subst hb
      subst h3
      exact hfar a b hd c hmem0

/-- Closed witness for C5: one stored entry `(0, 1, 1)` with bound `1`. -/
theorem C5_pairwise_bounded_witness :
    dist_calc_pairwise (fun _ _ => [(0, 1, (1 : ℚ))]) ⟨[(0, 0, 0), (0, 0, 0)], []⟩ [0, 1] 1 =
        .ok [(0, 1, (1 : ℚ))] ∧
      (∀ e ∈ ([(0, 1, (1 : ℚ))] : List (Nat × Nat × ℚ)), e.2.2 ≤ 1) ∧
      (∀ i j, i < ([0, 1] : List Nat).length → j < ([0, 1] : List Nat).length →
        (1 : ℚ) < 0 → ∀ q : ℚ,
        (([0, 1] : List Nat).getD i 0, ([0, 1] : List Nat).getD j 0, q) ∉
          ([(0, 1, (1 : ℚ))] : List (Nat × Nat × ℚ))) := by
  have hok : dist_calc_pairwise (fun _ _ => [(0, 1, (1 : ℚ))])
      ⟨[(0, 0, 0), (0, 0, 0)], []⟩ [0, 1] 1 = .ok [(0, 1, (1 : ℚ))] := rfl
  have h := C5_pairwise_bounded (fun _ _ => [(0, 1, (1 : ℚ))]) (fun _ _ => 0)
    ⟨[(0, 0, 0), (0, 0, 0)], []⟩ [0, 1] 1 [(0, 1, (1 : ℚ))]
    (by decide) (by decide)
    (fun i j hd q hmem => absurd hd (by norm_num)) hok
  exact ⟨hok, h.1, h.2⟩

/-! ### Claim C1: the `zone_calc` tie-break

The claim states that a vertex equidistant from several seed sets is
assigned the smallest tied 1-based seed index.  `zone_calc` computes the
per-vertex winner as `np.argsort(dist_vals, axis=0)[0, :]`, and numpy's
default sort is an unstable introsort: for 17 or more seeds the
partitioning step reorders tied keys.  The instance below has 17
singleton seed sets on an 18-vertex surface whose kernel `geoC1` is a
genuine metric; vertex `17` is at distance `1` from seeds `14` and `15`
(1-based) and at distance `2` from every other seed, yet `zone_calc`
assigns it zone `15`, not the smallest tied index `14`. -/

/-- Natural-number distance table for the C1 failing input: distance `1`
between vertex `17` and vertices `13`, `14`; distance `2` between any
other two distinct vertices. -/
def geoN : Nat → Nat → Nat := fun x y =>
  if x = y then 0
  else if (x = 17 ∧ (y = 13 ∨ y = 14)) ∨ (y = 17 ∧ (x = 13 ∨ x = 14)) then 1 else 2

/-- Metric for the C1 failing input (rational-valued view of `geoN`,
hence automatically nonnegative). -/
def geoC1 : Nat → Nat → ℚ := fun x y => (geoN x y : ℚ)

/-- Solver fulfilling the single-source contract for `geoC1` on the full
18-vertex cortex. -/
def gdC1 : Solver := fun sub ts =>
  (List.range sub.size).map (fun j => minlist (ts.map (fun s => geoC1 s j)))

/-- 18-vertex surface for the C1 failing input. -/
def surfC1 : Surface := ⟨List.replicate 18 (0, 0, 0), []⟩

/-- Full cortex mask for the C1 failing input. -/
def maskC1 : List Nat := List.range 18

/-- 17 singleton seed sets, one per vertex `0..16`. -/
def seedsC1 : List (List Nat) := (List.range 17).map (fun x => [x])

/-- C1 (code behaviour at the failing input).  On the 17-seed instance
above, `zone_calc` returns zone `15` at vertex `17` although the two
tied nearest seeds are `14` and `15` (1-based) — the smallest tied index
`14` does not win, refuting the claimed tie-break rule.  The final two
conjuncts certify the tie pattern and that `geoC1` is a metric
(symmetric, nonnegative, zero exactly on the diagonal of the evaluation,
and satisfying the triangle inequality), so the distances are realizable
geodesics. -/
theorem C1_zone_tiebreak_failing :
    zone_calc gdC1 surfC1 maskC1 seedsC1 =
        .ok [1, 2, 3, 4, 5, 6, 7, 8, 9, 10, 11, 12, 13, 14, 15, 16, 17, 15] ∧
      ([1, 2, 3, 4, 5, 6, 7, 8, 9, 10, 11, 12, 13, 14, 15, 16, 17, 15] :
          List Nat).getD 17 0 = 15 ∧
      geoC1 13 17 = 1 ∧ geoC1 14 17 = 1 ∧
      ((List.range 17).all fun x =>
        x == 13 || x == 14 || decide (geoN x 17 = 2)) = true ∧
      ((List.range 18).all fun x => (List.range 18).all fun y =>
        decide (geoN x y = geoN y x) && decide (geoN x x = 0) &&
          (List.range 18).all fun z =>
            decide (geoN x z ≤ geoN x y + geoN y z)) = true :=
  ⟨rfl, rfl, by decide, by decide, by decide, by decide⟩

end Surfdist
